import Mathlib

/-!
The `DataPool` of `ParticleSystem3D.h`

A shallow embedding of the class template `ax::DataPool<T>` and of the part of
`ax::ParticleSystem3D` that owns a pool, and a verification of the pool's list and
cursor discipline.

Naming follows the source, whose vocabulary is the reverse of what one might
expect: `_released` is the list of records that are *in use* (the active list,
`getActiveDataList`) and `_locked` is the list of records that are *available*
(the free list, `getUnActiveDataList`).

Modelling choices:

* A `T*` is a natural number, `0` being `nullptr`.  A *record* is a non-null pointer.
* A `std::list<T*>` is a `List Ptr`.
* A `std::list<T*>::iterator` into `_released` is a `PoolIterator`: either the node
  that currently sits at index `i`, or the past-the-end position `_released.end()`,
  or a singular value (default-constructed, or referring to a node that has been
  erased) on which every operation except assignment is undefined.
* Undefined behaviour (dereferencing or incrementing `end()`, using a singular
  iterator) is the result `none`.
-/

namespace ax

/-- A `T*`. -/
abbrev Ptr := Nat

/-- The null pointer, which the pool's queries return as their empty result. -/
def nullptr : Ptr := 0

/-- `DataPool::PoolList`, a `std::list<T*>`. -/
abbrev PoolList := List Ptr

/-- `DataPool::PoolIterator`, a `std::list<T*>::iterator` into `_released`. -/
inductive PoolIterator where
  /-- default-constructed, or the node it referred to has been erased -/
  | singular
  /-- the node that currently is the `i`-th of `_released` -/
  | node (i : Nat)
  /-- the position `_released.end()` -/
  | endIt
  deriving DecidableEq, Repr

namespace PoolList

/-- `l.begin()`: the first node, which is `l.end()` for an empty list. -/
def begin (l : PoolList) : PoolIterator :=
  match l with
  | [] => .endIt
  | _ :: _ => .node 0

/-- `*it`: undefined unless `it` is on a node of `l`. -/
def deref (l : PoolList) : PoolIterator → Option Ptr
  | .node i => l[i]?
  | _ => none

/-- `++it`: undefined unless `it` is on a node of `l`. -/
def incr (l : PoolList) : PoolIterator → Option PoolIterator
  | .node i =>
    if i + 1 < l.length then some (.node (i + 1))
    else if i + 1 = l.length then some .endIt
    else none
  | _ => none

/-- `--it`: undefined on `l.begin()` and on iterators that are not in `l`. -/
def decr (l : PoolList) : PoolIterator → Option PoolIterator
  | .node (i + 1) => if i + 1 < l.length then some (.node i) else none
  | .endIt =>
    match l.length with
    | 0 => none
    | n + 1 => some (.node n)
  | _ => none

/-- `l.erase(it)`: removes the node under `it` and returns the list together with
the iterator to the node that followed it (`end()` if it was the last). -/
def erase (l : PoolList) : PoolIterator → Option (PoolList × PoolIterator)
  | .node i =>
    if i < l.length then
      some (l.eraseIdx i, if i + 1 < l.length then .node i else .endIt)
    else none
  | _ => none

end PoolList

/-- What becomes of an iterator `it` into a `std::list` when the node at index `k`
is erased: iterators to other nodes stay on their node (whose index drops by one
when it came after the erased node), `end()` stays `end()`, and an iterator to
the erased node is invalidated. -/
def PoolIterator.afterErase (it : PoolIterator) (k : Nat) : PoolIterator :=
  match it with
  | .node j => if j < k then .node j else if j = k then .singular else .node (j - 1)
  | .endIt => .endIt
  | .singular => .singular

/-- The data members of `DataPool<T>`. -/
structure DataPool where
  _releasedIter : PoolIterator
  _released : PoolList
  _locked : PoolList
  deriving DecidableEq, Repr

namespace DataPool

/-- `DataPool()`: two empty lists and a default-constructed iterator. -/
def new : DataPool := ⟨.singular, [], []⟩

/-- `T* createData()`.  The spliced node keeps every iterator valid: one on a node
stays on that node, and `_released.end()` stays `_released.end()`. -/
def createData (p : DataPool) : Ptr × DataPool :=
  match p._locked with
  | [] => (nullptr, p)
  | front :: rest => (front, { p with _released := p._released ++ [front], _locked := rest })

/-- `void lockLatestData()`. -/
def lockLatestData (p : DataPool) : Option DataPool :=
  match p._released.deref p._releasedIter with
  | none => none
  | some v =>
    let locked := p._locked ++ [v]
    match p._released.erase p._releasedIter with
    | none => none
    | some (released, it) =>
      if it ≠ released.begin ∧ it ≠ .endIt then
        match released.decr it with
        | none => none
        | some it' => some ⟨it', released, locked⟩
      else some ⟨it, released, locked⟩

/-- `T* getFirst()`. -/
def getFirst (p : DataPool) : Ptr × DataPool :=
  let p' := { p with _releasedIter := p._released.begin }
  if p'._releasedIter = .endIt then (nullptr, p')
  else
    match p'._released.deref p'._releasedIter with
    | none => (nullptr, p')
    | some v => (v, p')

/-- `T* getNext()`. -/
def getNext (p : DataPool) : Option (Ptr × DataPool) :=
  match p._releasedIter with
  | .singular => none
  | .endIt => some (nullptr, p)
  | .node i =>
    match p._released.incr (.node i) with
    | none => none
    | some it =>
      let p' := { p with _releasedIter := it }
      if it = .endIt then some (nullptr, p')
      else
        match p._released.deref it with
        | none => none
        | some v => some (v, p')

/-- The loop `while (ptr) { if (ptr == data) break; ptr = getNext(); }` of `lockData`,
bounded by `fuel` iterations. -/
def lockDataLoop (data : Ptr) : Nat → Ptr → DataPool → Option (Ptr × DataPool)
  | 0, _, _ => none
  | fuel + 1, ptr, p =>
    if ptr = nullptr then some (ptr, p)
    else if ptr = data then some (ptr, p)
    else
      match getNext p with
      | none => none
      | some (ptr', p') => lockDataLoop data fuel ptr' p'

/-- The index of the node an iterator is on, for `PoolIterator.afterErase`. -/
def iterIndex (p : DataPool) : Nat :=
  match p._releasedIter with
  | .node i => i
  | _ => p._released.length

/-- `void lockData(T* data)`.  The loop visits each node at most once, so
`_released.size() + 1` iterations are always enough.  `tempIter` is a copy of the
cursor taken before the scan; when the scan erases a node, the copy is subject to
`PoolIterator.afterErase`. -/
def lockData (p : DataPool) (data : Ptr) : Option DataPool :=
  let tempIter := p._releasedIter
  let first := getFirst p
  match lockDataLoop data (p._released.length + 1) first.1 first.2 with
  | none => none
  | some (ptr, p1) =>
    if ptr ≠ nullptr then
      match lockLatestData p1 with
      | none => none
      | some p2 => some { p2 with _releasedIter := tempIter.afterErase (iterIndex p1) }
    else some { p1 with _releasedIter := tempIter }

/-- `void lockAllDatas()`. -/
def lockAllDatas (p : DataPool) : DataPool :=
  let locked := p._locked ++ p._released
  let released : PoolList := []
  ⟨released.begin, released, locked⟩

/-- `getActiveDataList()`. -/
def getActiveDataList (p : DataPool) : PoolList := p._released

/-- `getUnActiveDataList()`. -/
def getUnActiveDataList (p : DataPool) : PoolList := p._locked

/-- `void addData(T* data)`. -/
def addData (p : DataPool) (data : Ptr) : DataPool :=
  { p with _locked := p._locked ++ [data] }

/-- `bool empty() const`. -/
def empty (p : DataPool) : Bool := p._released.isEmpty

/-- Modelled from the spec: the loop of an affector pass (§4.4, step 2), whose callers
are not part of this header.  It is the body
`while (ptr) { if (kill(ptr)) lockLatestData(); ptr = getNext(); }` over the pool's own
member functions, bounded by `fuel` iterations; it returns the records it visited,
in order, and the pool. -/
def passLoop (kill : Ptr → Bool) : Nat → Ptr → DataPool → Option (List Ptr × DataPool)
  | 0, _, _ => none
  | fuel + 1, ptr, p =>
    if ptr = nullptr then some ([], p)
    else
      match (if kill ptr then lockLatestData p else some p) with
      | none => none
      | some p1 =>
        match getNext p1 with
        | none => none
        | some (ptr', p2) =>
          match passLoop kill fuel ptr' p2 with
          | none => none
          | some (visited, q) => some (ptr :: visited, q)

/-- Modelled from the spec: one affector pass (§4.4, step 2),
`ptr = getFirst(); while (ptr) { ... ptr = getNext(); }`.  Every iteration leaves one
node fewer ahead of the cursor, so `_released.size() + 1` iterations are always
enough. -/
def pass (kill : Ptr → Bool) (p : DataPool) : Option (List Ptr × DataPool) :=
  let first := getFirst p
  passLoop kill (p._released.length + 1) first.1 first.2

/-- The cursor `lockLatestData` leaves behind after erasing the node at index `i` of
a list of `n` nodes. -/
def cursorAfterRelease (i n : Nat) : PoolIterator :=
  if i + 1 < n then (if i = 0 then .node 0 else .node (i - 1)) else .endIt

/-- The iterator on the node at index `i` of `l`, or `l.end()` from `l.size()` on. -/
def cursorAt (l : PoolList) (i : Nat) : PoolIterator :=
  if i < l.length then .node i else .endIt

/-- The value a query returns with the cursor at `cursorAt l i`. -/
def ptrAt (l : PoolList) (i : Nat) : Ptr := l[i]?.getD nullptr

/-- The member functions through which a caller changes the state of a pool of
fixed capacity. -/
inductive PoolCall where
  | createData
  | lockLatestData
  | lockData (data : Ptr)
  | lockAllDatas
  | getFirst
  | getNext
  deriving DecidableEq, Repr

/-- The pool after one call; `none` when the call is undefined in that state. -/
def call (p : DataPool) : PoolCall → Option DataPool
  | .createData => some (createData p).2
  | .lockLatestData => lockLatestData p
  | .lockData data => lockData p data
  | .lockAllDatas => some (lockAllDatas p)
  | .getFirst => some (getFirst p).2
  | .getNext => (getNext p).map Prod.snd

/-- The pool after a sequence of calls. -/
def calls (p : DataPool) : List PoolCall → Option DataPool
  | [] => some p
  | c :: cs =>
    match call p c with
    | none => none
    | some q => calls q cs

/-- The number of records the pool holds, `|active| + |free|`. -/
def capacity (p : DataPool) : Nat := p._released.length + p._locked.length

/-- The records of `p` are the records of `q`, and each of them is in exactly one of
the two lists of `q`. -/
def Conserves (p q : DataPool) : Prop :=
  (q._released ++ q._locked).Perm (p._released ++ p._locked) ∧
  ∀ r ∈ p._released ++ p._locked,
    (r ∈ q._released ∧ r ∉ q._locked) ∨ (r ∉ q._released ∧ r ∈ q._locked)

instance (p q : DataPool) : Decidable (Conserves p q) := by
  unfold Conserves
  infer_instance

/-- The calls `getNext()` made `n` times in a row, with the values they return, in
order. -/
def getNextN : Nat → DataPool → Option (List Ptr × DataPool)
  | 0, p => some ([], p)
  | n + 1, p =>
    match getNext p with
    | none => none
    | some (v, p1) =>
      match getNextN n p1 with
      | none => none
      | some (vs, q) => some (v :: vs, q)

/-- The call `getFirst()` followed by `n` calls of `getNext()`, with the values they
return, in order. -/
def traversal (n : Nat) (p : DataPool) : Option (List Ptr × DataPool) :=
  match getNextN n (getFirst p).2 with
  | none => none
  | some (vs, q) => some ((getFirst p).1 :: vs, q)

end DataPool

/-- `ParticleSystem3D::State`. -/
inductive State where
  | STOP
  | RUNNING
  | PAUSE
  deriving DecidableEq, Repr

/-- The data members of `ParticleSystem3D` that its pool, its counters and its play
control involve; the emitter, the affectors, the renderer and the blend function
are collaborators outside this development. -/
structure ParticleSystem3D where
  _state : State
  _particlePool : DataPool
  _aliveParticlesCnt : Int
  _particleQuota : Nat
  _keepLocal : Bool
  _isEnabled : Bool
  deriving DecidableEq, Repr

namespace ParticleSystem3D

/-- `const ParticlePool& getParticlePool()`. -/
def getParticlePool (s : ParticleSystem3D) : DataPool := s._particlePool

/-- `virtual int getAliveParticleCount() const { return 0; }`. -/
def getAliveParticleCount (_s : ParticleSystem3D) : Int := 0

/-- `State getState() const`. -/
def getState (s : ParticleSystem3D) : State := s._state

/-- Modelled from the spec: `stopParticleSystem()`, which this header only declares.
§4.3: "stop(): RUNNING|PAUSE → STOP; releases all active particles back to free",
and a transition from any other state is a no-op.  The release of all active
particles is the pool's `lockAllDatas()`. -/
def stopParticleSystem (s : ParticleSystem3D) : ParticleSystem3D :=
  match s._state with
  | .STOP => s
  | .RUNNING => { s with _state := .STOP, _particlePool := s._particlePool.lockAllDatas }
  | .PAUSE => { s with _state := .STOP, _particlePool := s._particlePool.lockAllDatas }

end ParticleSystem3D

/-! ## Lemmas on the operations -/

namespace DataPool

theorem lockLatestData_node (p : DataPool) (i : Nat) (hit : p._releasedIter = .node i)
    (h : i < p._released.length) :
    lockLatestData p = some ⟨cursorAfterRelease i p._released.length,
      p._released.eraseIdx i, p._locked ++ [p._released[i]]⟩ := by
  obtain ⟨it, rel, lck⟩ := p
  simp only at hit h ⊢
  subst hit
  unfold lockLatestData cursorAfterRelease
  simp only [PoolList.deref, PoolList.erase, List.getElem?_eq_getElem h, h, if_true]
  by_cases h1 : i + 1 < rel.length
  · have hne : rel.eraseIdx i ≠ [] := by
      intro he
      have := congrArg List.length he
      rw [List.length_eraseIdx] at this
      simp [h] at this
      omega
    obtain ⟨a, t, hat⟩ := List.exists_cons_of_ne_nil hne
    cases i with
    | zero => simp [h1, hat, PoolList.begin]
    | succ j =>
      have hlen : j + 1 < (a :: t).length := by
        rw [← hat, List.length_eraseIdx]; simp [h]; omega
      simp [h1, hat, PoolList.begin, PoolList.decr, hlen]
      simp at hlen
      simp [hlen]
  · simp [h1]

theorem getFirst_eq (p : DataPool) :
    getFirst p = (ptrAt p._released 0, { p with _releasedIter := cursorAt p._released 0 }) := by
  obtain ⟨it, rel, lck⟩ := p
  cases rel with
  | nil => simp [getFirst, PoolList.begin, cursorAt, ptrAt]
  | cons a t => simp [getFirst, PoolList.begin, cursorAt, ptrAt, PoolList.deref]

theorem getNext_end (p : DataPool) (hit : p._releasedIter = .endIt) :
    getNext p = some (nullptr, p) := by
  unfold getNext; rw [hit]

theorem getNext_node (p : DataPool) (i : Nat) (hit : p._releasedIter = .node i)
    (h : i < p._released.length) :
    getNext p = some (ptrAt p._released (i + 1),
      { p with _releasedIter := cursorAt p._released (i + 1) }) := by
  obtain ⟨it, rel, lck⟩ := p
  simp only at hit h ⊢
  subst hit
  unfold getNext cursorAt ptrAt
  by_cases h1 : i + 1 < rel.length
  · simp [PoolList.incr, PoolList.deref, h1, List.getElem?_eq_getElem h1]
  · have h2 : i + 1 = rel.length := by omega
    simp [PoolList.incr, h1, h2]

theorem getNext_cursorAt (it : PoolIterator) (l f : PoolList) (i : Nat)
    (hit : it = cursorAt l i) :
    getNext ⟨it, l, f⟩ = some (ptrAt l (i + 1), ⟨cursorAt l (i + 1), l, f⟩) := by
  subst hit
  by_cases h : i < l.length
  · have := getNext_node ⟨cursorAt l i, l, f⟩ i (by simp [cursorAt, h]) h
    simpa using this
  · have h1 : ¬ (i + 1 < l.length) := by omega
    have := getNext_end ⟨cursorAt l i, l, f⟩ (by simp [cursorAt, h])
    rw [this]
    simp [cursorAt, ptrAt, h, h1]
    rw [List.getElem?_eq_none (by omega)]; rfl

theorem ptrAt_of_lt (l : PoolList) (i : Nat) (h : i < l.length) : ptrAt l i = l[i] := by
  simp [ptrAt, List.getElem?_eq_getElem h]

theorem ptrAt_of_ge (l : PoolList) (i : Nat) (h : l.length ≤ i) : ptrAt l i = nullptr := by
  simp [ptrAt, List.getElem?_eq_none h]

/-- The scan of `lockData`, started with the cursor at index `i`, stops at the first
index `k ≥ i` that holds `data` or a null pointer, or at the end of the list. -/
theorem lockDataLoop_spec (data : Ptr) (l f : PoolList) :
    ∀ (n i fuel : Nat), l.length - i = n → n < fuel →
      ∃ k, i ≤ k ∧ 
        lockDataLoop data fuel (ptrAt l i) ⟨cursorAt l i, l, f⟩
          = some (ptrAt l k, ⟨cursorAt l k, l, f⟩) ∧
        (∀ j, i ≤ j → j < k → ptrAt l j ≠ nullptr ∧ ptrAt l j ≠ data) ∧
        (ptrAt l k = nullptr ∨ ptrAt l k = data) := by
  intro n
  induction n with
  | zero =>
    intro i fuel hn hf
    obtain ⟨g, rfl⟩ : ∃ g, fuel = g + 1 := ⟨fuel - 1, by omega⟩
    have hnull : ptrAt l i = nullptr := ptrAt_of_ge l i (by omega)
    refine ⟨i, le_refl _, ?_, ?_, Or.inl hnull⟩
    · simp [lockDataLoop, hnull]
    · intro j h1 h2; omega
  | succ m ih =>
    intro i fuel hn hf
    obtain ⟨g, rfl⟩ : ∃ g, fuel = g + 1 := ⟨fuel - 1, by omega⟩
    by_cases hstop : ptrAt l i = nullptr ∨ ptrAt l i = data
    · refine ⟨i, le_refl _, ?_, ?_, hstop⟩
      · rcases hstop with h | h
        · simp [lockDataLoop, h]
        · unfold lockDataLoop; simp [h]
      · intro j h1 h2; omega
    · push_neg at hstop
      obtain ⟨k, hk, hrun, hbefore, hat⟩ := ih (i + 1) g (by omega) (by omega)
      refine ⟨k, by omega, ?_, ?_, hat⟩
      · unfold lockDataLoop
        simp only [hstop.1, hstop.2, if_false]
        rw [getNext_cursorAt _ l f i rfl]
        exact hrun
      · intro j h1 h2
        by_cases hj : j = i
        · subst hj; exact hstop
        · exact hbefore j (by omega) h2

/-- What `lockData` does, without any assumption on the pool: the scan stops at the
first index `k` that holds `data` or a null pointer (or at the end); it releases
the node at `k` when that node holds a non-null `data`, and changes nothing
otherwise. -/
theorem lockData_spec (p : DataPool) (d : Ptr) :
    ∃ k, (∀ j, j < k → ptrAt p._released j ≠ nullptr ∧ ptrAt p._released j ≠ d) ∧
      ((ptrAt p._released k = nullptr ∧ lockData p d = some p) ∨
       (k < p._released.length ∧ ptrAt p._released k = d ∧ d ≠ nullptr ∧
        lockData p d = some ⟨p._releasedIter.afterErase k, p._released.eraseIdx k,
          p._locked ++ [d]⟩)) := by
  obtain ⟨it, l, f⟩ := p
  obtain ⟨k, -, hrun, hbefore, hat⟩ :=
    lockDataLoop_spec d l f (l.length - 0) 0 (l.length + 1) rfl (by omega)
  refine ⟨k, fun j hj => hbefore j (Nat.zero_le _) hj, ?_⟩
  by_cases hnull : ptrAt l k = nullptr
  · left
    refine ⟨hnull, ?_⟩
    unfold lockData
    simp only [getFirst_eq, hrun, hnull]
    simp
  · right
    have hk : k < l.length := by
      by_contra hge
      exact hnull (ptrAt_of_ge l k (by omega))
    have hd : ptrAt l k = d := by
      rcases hat with h | h
      · exact absurd h hnull
      · exact h
    refine ⟨hk, hd, hd ▸ hnull, ?_⟩
    have hcur : cursorAt l k = .node k := by simp [cursorAt, hk]
    have hrel := lockLatestData_node ⟨cursorAt l k, l, f⟩ k hcur hk
    unfold lockData
    simp only [getFirst_eq, hrun, hrel]
    simp only [ne_eq, hnull, not_false_eq_true, if_true]
    simp [iterIndex, hcur, ← hd, ptrAt_of_lt l k hk]

theorem lockData_isSome (p : DataPool) (d : Ptr) : ∃ q, lockData p d = some q := by
  obtain ⟨k, -, h | h⟩ := lockData_spec p d
  · exact ⟨_, h.2⟩
  · exact ⟨_, h.2.2.2⟩

/-- Moving the node at index `k` to the back of the other list permutes the records. -/
theorem perm_release (l f : PoolList) (k : Nat) (h : k < l.length) :
    (l.eraseIdx k ++ (f ++ [l[k]])).Perm (l ++ f) := by
  have hl : l = l.take k ++ l[k] :: l.drop (k + 1) := by
    conv_lhs => rw [← List.take_append_drop k l]
    rw [List.drop_eq_getElem_cons h]
  have he : l.eraseIdx k = l.take k ++ l.drop (k + 1) := List.eraseIdx_eq_take_drop_succ l k
  rw [he]
  conv_rhs => rw [hl]
  simp only [List.append_assoc]
  refine List.Perm.append_left _ ?_
  rw [List.cons_append, ← List.append_assoc]
  exact List.perm_append_singleton _ _

theorem conserves_of_perm (p q : DataPool) (hnd : (p._released ++ p._locked).Nodup)
    (hperm : (q._released ++ q._locked).Perm (p._released ++ p._locked)) : Conserves p q := by
  refine ⟨hperm, fun r hr => ?_⟩
  have hq : (q._released ++ q._locked).Nodup := hperm.nodup_iff.mpr hnd
  have hmem : r ∈ q._released ++ q._locked := hperm.mem_iff.mpr hr
  have hdis := (List.nodup_append.mp hq).2.2
  rcases List.mem_append.mp hmem with h | h
  · exact Or.inl ⟨h, fun h2 => hdis h h2⟩
  · exact Or.inr ⟨fun h1 => hdis h1 h, h⟩

theorem createData_perm (p : DataPool) :
    ((createData p).2._released ++ (createData p).2._locked).Perm (p._released ++ p._locked) := by
  obtain ⟨it, l, f⟩ := p
  cases f with
  | nil => simp [createData]
  | cons a t => simp [createData]

theorem lockAllDatas_perm (p : DataPool) :
    ((lockAllDatas p)._released ++ (lockAllDatas p)._locked).Perm (p._released ++ p._locked) := by
  simp only [lockAllDatas, List.nil_append]
  exact List.perm_append_comm

theorem lockData_perm (p q : DataPool) (d : Ptr) (h : lockData p d = some q) :
    (q._released ++ q._locked).Perm (p._released ++ p._locked) := by
  obtain ⟨k, -, hk | hk⟩ := lockData_spec p d
  · rw [hk.2] at h
    cases h
    exact List.Perm.refl _
  · obtain ⟨hlt, hd, -, hrun⟩ := hk
    rw [hrun] at h
    cases h
    have := perm_release p._released p._locked k hlt
    rw [ptrAt_of_lt _ _ hlt] at hd
    rw [hd] at this
    exact this

theorem lockLatestData_perm (p q : DataPool) (h : lockLatestData p = some q) :
    (q._released ++ q._locked).Perm (p._released ++ p._locked) := by
  obtain ⟨it, l, f⟩ := p
  cases it with
  | singular => simp [lockLatestData, PoolList.deref] at h
  | endIt => simp [lockLatestData, PoolList.deref] at h
  | node i =>
    by_cases hi : i < l.length
    · rw [lockLatestData_node ⟨.node i, l, f⟩ i rfl hi] at h
      cases h
      exact perm_release l f i hi
    · simp [lockLatestData, PoolList.deref, List.getElem?_eq_none (Nat.le_of_not_lt hi)] at h

theorem getNext_lists (p q : DataPool) (v : Ptr) (h : getNext p = some (v, q)) :
    q._released = p._released ∧ q._locked = p._locked := by
  obtain ⟨it, l, f⟩ := p
  cases it with
  | singular => simp [getNext] at h
  | endIt =>
    rw [getNext_end _ rfl] at h
    cases h
    exact ⟨rfl, rfl⟩
  | node i =>
    by_cases hi : i < l.length
    · rw [getNext_node ⟨.node i, l, f⟩ i rfl hi] at h
      cases h
      exact ⟨rfl, rfl⟩
    · have h1 : ¬ (i + 1 < l.length) := by omega
      have h2 : ¬ (i + 1 = l.length) := by omega
      simp [getNext, PoolList.incr, h1, h2] at h

theorem call_perm (p q : DataPool) (c : PoolCall) (h : call p c = some q) :
    (q._released ++ q._locked).Perm (p._released ++ p._locked) := by
  cases c with
  | createData =>
    simp only [call, Option.some.injEq] at h
    subst h
    exact createData_perm p
  | lockLatestData => exact lockLatestData_perm p q h
  | lockData d => exact lockData_perm p q d h
  | lockAllDatas =>
    simp only [call, Option.some.injEq] at h
    subst h
    exact lockAllDatas_perm p
  | getFirst =>
    simp only [call, Option.some.injEq, getFirst_eq] at h
    subst h
    exact List.Perm.refl _
  | getNext =>
    simp only [call, Option.map_eq_some'] at h
    obtain ⟨⟨v, q'⟩, hq, rfl⟩ := h
    obtain ⟨h1, h2⟩ := getNext_lists p q' v hq
    simp only [h1, h2]
    exact List.Perm.refl _

theorem call_capacity (p q : DataPool) (c : PoolCall) (h : call p c = some q) :
    capacity q = capacity p := by
  have := (call_perm p q c h).length_eq
  simpa [capacity] using this

theorem calls_append (p : DataPool) (cs ds : List PoolCall) :
    calls p (cs ++ ds) = (calls p cs).bind (fun q => calls q ds) := by
  induction cs generalizing p with
  | nil => simp [calls]
  | cons c cs ih =>
    simp only [List.cons_append, calls]
    cases call p c with
    | none => simp
    | some q => simpa using ih q

theorem calls_capacity (p q : DataPool) (cs : List PoolCall) (h : calls p cs = some q) :
    capacity q = capacity p := by
  induction cs generalizing p with
  | nil =>
    simp only [calls, Option.some.injEq] at h
    rw [h]
  | cons c cs ih =>
    simp only [calls] at h
    cases hc : call p c with
    | none => simp [hc] at h
    | some p1 =>
      simp only [hc] at h
      rw [ih p1 h, call_capacity p p1 c hc]

theorem addData_capacity (ds : List Ptr) (p : DataPool) :
    capacity (ds.foldl addData p) = capacity p + ds.length := by
  induction ds generalizing p with
  | nil => simp
  | cons d ds ih =>
    simp only [List.foldl_cons, List.length_cons]
    rw [ih]
    simp [capacity, addData]
    omega

theorem eraseIdx_middle (l1 l2 : PoolList) (d : Ptr) :
    (l1 ++ d :: l2).eraseIdx l1.length = l1 ++ l2 := by
  induction l1 with
  | nil => simp
  | cons a t ih => simp [ih]

theorem ptrAt_middle (l1 l2 : PoolList) (d : Ptr) : ptrAt (l1 ++ d :: l2) l1.length = d := by
  unfold ptrAt
  rw [List.getElem?_append_right (le_refl _)]
  simp

/-- An iterator that was not on the erased node still designates the record it
designated before. -/
theorem deref_afterErase (l1 l2 : PoolList) (d : Ptr) (it : PoolIterator)
    (h : it ≠ .node l1.length) :
    PoolList.deref (l1 ++ l2) (it.afterErase l1.length) = PoolList.deref (l1 ++ d :: l2) it := by
  cases it with
  | singular => simp [PoolIterator.afterErase, PoolList.deref]
  | endIt => simp [PoolIterator.afterErase, PoolList.deref]
  | node j =>
    have hj : j ≠ l1.length := fun e => h (by rw [e])
    rcases Nat.lt_or_gt_of_ne hj with hlt | hgt
    · simp [PoolIterator.afterErase, PoolList.deref, hlt, List.getElem?_append_left hlt]
    · have h1 : ¬ (j < l1.length) := by omega
      obtain ⟨m, rfl⟩ : ∃ m, j = l1.length + (m + 1) := ⟨j - l1.length - 1, by omega⟩
      simp only [PoolIterator.afterErase, h1, hj, if_false, PoolList.deref]
      rw [List.getElem?_append_right (by omega), List.getElem?_append_right (by omega)]
      have e1 : l1.length + (m + 1) - 1 - l1.length = m := by omega
      have e2 : l1.length + (m + 1) - l1.length = m + 1 := by omega
      rw [e1, e2]
      simp

theorem afterErase_eq_endIt (it : PoolIterator) (k : Nat) :
    it.afterErase k = .endIt ↔ it = .endIt := by
  cases it with
  | singular => simp [PoolIterator.afterErase]
  | endIt => simp [PoolIterator.afterErase]
  | node j =>
    simp only [PoolIterator.afterErase]
    split_ifs <;> simp


/-- A call is defined whenever the cursor is where the call needs it: on an active
record for `lockLatestData`, on an active record or at the end for `getNext`; the
other calls are always defined. -/
theorem call_isSome (p : DataPool) (c : PoolCall)
    (hrelease : c = .lockLatestData →
      ∃ i, p._releasedIter = .node i ∧ i < p._released.length)
    (hnext : c = .getNext →
      p._releasedIter = .endIt ∨ ∃ i, p._releasedIter = .node i ∧ i < p._released.length) :
    ∃ q, call p c = some q := by
  cases c with
  | createData => exact ⟨_, rfl⟩
  | lockLatestData =>
    obtain ⟨i, hit, hi⟩ := hrelease rfl
    exact ⟨_, lockLatestData_node p i hit hi⟩
  | lockData d => exact lockData_isSome p d
  | lockAllDatas => exact ⟨_, rfl⟩
  | getFirst => exact ⟨_, rfl⟩
  | getNext =>
    rcases hnext rfl with hend | ⟨i, hit, hi⟩
    · exact ⟨p, by simp [call, getNext_end p hend]⟩
    · exact ⟨{ p with _releasedIter := cursorAt p._released (i + 1) },
        by simp [call, getNext_node p i hit hi]⟩

theorem cursorAt_middle (l1 l2 : PoolList) (d : Ptr) :
    cursorAt (l1 ++ d :: l2) l1.length = .node l1.length := by
  simp [cursorAt]

/-- Rewind-then-advance away from the head: releasing a record that has a
predecessor and then calling `getNext()` puts the cursor on the record that followed
the released one (or at the end) and returns it. -/
theorem release_then_next (kept rest : PoolList) (x : Ptr) (f : PoolList)
    (hkept : kept ≠ []) :
    (lockLatestData ⟨.node kept.length, kept ++ x :: rest, f⟩).bind getNext
      = some (ptrAt (kept ++ rest) kept.length,
          ⟨cursorAt (kept ++ rest) kept.length, kept ++ rest, f ++ [x]⟩) := by
  have hpos : 0 < kept.length := List.length_pos.mpr hkept
  have hlt : kept.length < (kept ++ x :: rest).length := by simp
  have hx : (kept ++ x :: rest)[kept.length] = x := by
    have := ptrAt_middle kept rest x
    rwa [ptrAt_of_lt _ _ hlt] at this
  have h := lockLatestData_node ⟨.node kept.length, kept ++ x :: rest, f⟩ kept.length rfl hlt
  simp only [eraseIdx_middle, hx] at h
  rw [h, Option.some_bind]
  cases rest with
  | nil =>
    have hc : cursorAfterRelease kept.length (kept ++ [x]).length = .endIt := by
      simp [cursorAfterRelease]
    rw [hc, getNext_end _ rfl]
    simp [ptrAt, cursorAt]
  | cons y rest' =>
    have hc : cursorAfterRelease kept.length (kept ++ x :: y :: rest').length
        = cursorAt (kept ++ y :: rest') (kept.length - 1) := by
      have h0 : kept.length ≠ 0 := by omega
      have h1 : kept.length - 1 < kept.length + (rest'.length + 1) := by omega
      simp [cursorAfterRelease, cursorAt, h0, h1]
    rw [hc, getNext_cursorAt _ _ _ (kept.length - 1) rfl]
    have e : kept.length - 1 + 1 = kept.length := by omega
    rw [e]

/-- The same two calls at the head: the cursor stays on the new head after the
release, so `getNext()` steps over it and returns the record after it. -/
theorem release_head_then_next (rest : PoolList) (x : Ptr) (f : PoolList) :
    (lockLatestData ⟨.node 0, x :: rest, f⟩).bind getNext
      = some (ptrAt rest 1, ⟨cursorAt rest 1, rest, f ++ [x]⟩) := by
  have h := lockLatestData_node ⟨.node 0, x :: rest, f⟩ 0 rfl (by simp)
  simp only [List.eraseIdx_cons_zero, List.getElem_cons_zero] at h
  rw [h, Option.some_bind]
  have hc : cursorAfterRelease 0 (x :: rest).length = cursorAt rest 0 := by
    simp [cursorAfterRelease, cursorAt]
  rw [hc, getNext_cursorAt _ _ _ 0 rfl]

/-- A pass that has left the head behind (`kept` is what it has visited and kept)
visits every remaining record once, in order, releases exactly those selected by
`kill`, and ends at the end sentinel. -/
theorem passLoop_spec (kill : Ptr → Bool) :
    ∀ (rest kept f : PoolList) (fuel : Nat), kept ≠ [] → nullptr ∉ rest →
      rest.length < fuel →
      passLoop kill fuel (ptrAt (kept ++ rest) kept.length)
          ⟨cursorAt (kept ++ rest) kept.length, kept ++ rest, f⟩
        = some (rest, ⟨.endIt, kept ++ rest.filter (fun r => !kill r),
            f ++ rest.filter kill⟩) := by
  intro rest
  induction rest with
  | nil =>
    intro kept f fuel _ _ hfuel
    obtain ⟨g, rfl⟩ : ∃ g, fuel = g + 1 := ⟨fuel - 1, by simp at hfuel; omega⟩
    have hp : ptrAt (kept ++ []) kept.length = nullptr := ptrAt_of_ge _ _ (by simp)
    have hc : cursorAt (kept ++ []) kept.length = .endIt := by simp [cursorAt]
    rw [hp, hc]
    simp [passLoop]
  | cons x rest ih =>
    intro kept f fuel hkept hnull hfuel
    obtain ⟨g, rfl⟩ : ∃ g, fuel = g + 1 := ⟨fuel - 1, by omega⟩
    have hx : x ≠ nullptr := fun e => hnull (by simp [e])
    have hrest : nullptr ∉ rest := fun h => hnull (List.mem_cons_of_mem _ h)
    have hg : rest.length < g := by simp at hfuel; omega
    rw [ptrAt_middle, cursorAt_middle]
    unfold passLoop
    simp only [hx, if_false]
    by_cases hk : kill x = true
    · have h := release_then_next kept rest x f hkept
      simp only [hk, if_true]
      cases hl : lockLatestData ⟨.node kept.length, kept ++ x :: rest, f⟩ with
      | none => simp [hl] at h
      | some p1 =>
        rw [hl, Option.some_bind] at h
        simp only [h, ih kept (f ++ [x]) g hkept hrest hg]
        simp [List.filter_cons, hk]
    · have hk' : kill x = false := by simpa using hk
      simp only [hk', Bool.false_eq_true, if_false]
      rw [getNext_node _ kept.length rfl (by simp)]
      have e : kept ++ x :: rest = (kept ++ [x]) ++ rest := by simp
      have hlen : kept.length + 1 = (kept ++ [x]).length := by simp
      simp only [e, hlen]
      rw [ih (kept ++ [x]) f g (by simp) hrest hg]
      simp [List.filter_cons, hk']

/-- A whole pass over non-null records whose first record is kept: every record is
visited once, in order; the records selected by `kill` move to the back of the free
list in visit order and the others stay active in their order. -/
theorem pass_head_kept (kill : Ptr → Bool) (it : PoolIterator) (a : Ptr)
    (rest f : PoolList) (ha : a ≠ nullptr) (hrest : nullptr ∉ rest)
    (hkeep : kill a = false) :
    pass kill ⟨it, a :: rest, f⟩
      = some (a :: rest, ⟨.endIt, a :: rest.filter (fun r => !kill r),
          f ++ rest.filter kill⟩) := by
  unfold pass
  rw [getFirst_eq]
  have hp : ptrAt (a :: rest) 0 = a := by simp [ptrAt]
  have hc : cursorAt (a :: rest) 0 = .node 0 := by simp [cursorAt]
  simp only [hp, hc]
  unfold passLoop
  simp only [ha, if_false, hkeep, Bool.false_eq_true]
  rw [getNext_node _ 0 rfl (by simp)]
  have h := passLoop_spec kill rest [a] f (rest.length + 1) (by simp) hrest (by omega)
  simp only [List.singleton_append, List.length_singleton] at h
  simp only [zero_add, List.length_cons, h]

theorem getNextN_cursorAt (l f : PoolList) :
    ∀ (m i : Nat), getNextN m ⟨cursorAt l i, l, f⟩
      = some ((List.range m).map (fun j => ptrAt l (i + 1 + j)),
          ⟨cursorAt l (i + m), l, f⟩) := by
  intro m
  induction m with
  | zero => intro i; simp [getNextN]
  | succ m ih =>
    intro i
    unfold getNextN
    rw [getNext_cursorAt _ l f i rfl]
    simp only [ih (i + 1)]
    rw [List.range_succ_eq_map]
    simp only [List.map_cons, List.map_map, Nat.add_zero]
    have e1 : i + 1 + m = i + (m + 1) := by omega
    have e2 : ((fun j => ptrAt l (i + 1 + j)) ∘ Nat.succ) = fun j => ptrAt l (i + 1 + 1 + j) := by
      funext j; simp only [Function.comp]; congr 1; omega
    rw [e1, e2]

theorem traversal_eq (p : DataPool) (m : Nat) :
    traversal m p = some ((List.range (m + 1)).map (ptrAt p._released),
      ⟨cursorAt p._released m, p._released, p._locked⟩) := by
  unfold traversal
  rw [getFirst_eq]
  simp only [getNextN_cursorAt p._released p._locked m 0]
  rw [List.range_succ_eq_map]
  simp only [List.map_cons, List.map_map, zero_add]
  have e : (ptrAt p._released ∘ Nat.succ) = fun j => ptrAt p._released (1 + j) := by
    funext j; simp only [Function.comp]; congr 1; omega
  rw [e]

theorem map_ptrAt_range (l : PoolList) (s m : Nat) (h : s + m ≤ l.length) :
    (List.range m).map (fun j => ptrAt l (s + j)) = (l.drop s).take m := by
  apply List.ext_getElem
  · simp; omega
  · intro i h1 h2
    simp at h1
    have hlt : s + i < l.length := by omega
    simp [ptrAt_of_lt l (s + i) hlt]

theorem map_ptrAt_range_past (l : PoolList) (k : Nat) :
    (List.range (l.length + k)).map (ptrAt l) = l ++ List.replicate k nullptr := by
  apply List.ext_getElem
  · simp
  · intro i h1 h2
    simp at h1
    by_cases hi : i < l.length
    · simp [ptrAt_of_lt l i hi, List.getElem_append_left hi]
    · simp [ptrAt_of_ge l i (by omega), List.getElem_append_right (Nat.le_of_not_lt hi)]

/-! ## The claims -/

/-- C1 (the code departs from the claim): on the active list `[1, 2]`, the pass that
releases record `1` visits `1` and then stops; record `2`, which was active at the
start and is not released, is never visited. -/
theorem C1_pass_skips_record_after_released_head :
    pass (fun r => r == 1) ⟨.singular, [1, 2], []⟩ = some ([1], ⟨.endIt, [2], [1]⟩) := by
  decide

/-- C2 (the code departs from the claim): with the cursor on the first of the active
records `[1, 2, 3]`, `lockLatestData()` followed by `getNext()` returns `3`, not the
record `2` that immediately followed the released one. -/
theorem C2_release_head_then_next_skips_successor :
    (lockLatestData ⟨.node 0, [1, 2, 3], []⟩).bind getNext
      = some (3, ⟨.node 1, [2, 3], [1]⟩) := by
  decide

/-- C3: with the cursor on the active record `r`, `lockLatestData()` removes exactly
the node of `r` from the active list, keeps the other active records in their order
and appends `r` to the free list, so the active count drops by one and the free
count grows by one.  Scenario: from five free records, three `createData()` calls
give three active and two free records, and the pass that releases the second of
them leaves the first and the third active, in that order, and three free records. -/
theorem C3_lockLatestData_moves_cursor_record :
    (∀ (p : DataPool) (l1 l2 : PoolList) (r : Ptr),
      p._released = l1 ++ r :: l2 → p._releasedIter = .node l1.length →
      ∃ q, lockLatestData p = some q ∧ q._released = l1 ++ l2 ∧
        q._locked = p._locked ++ [r] ∧
        q._released.length + 1 = p._released.length ∧
        q._locked.length = p._locked.length + 1) ∧
    (([1, 2, 3, 4, 5].foldl addData new).createData.2.createData.2.createData.2
        = ⟨.singular, [1, 2, 3], [4, 5]⟩ ∧
      pass (fun r => r == 2) ⟨.singular, [1, 2, 3], [4, 5]⟩
        = some ([1, 2, 3], ⟨.endIt, [1, 3], [4, 5, 2]⟩)) := by
  refine ⟨?_, by decide, by decide⟩
  intro p l1 l2 r hrel hit
  have hlt : l1.length < p._released.length := by rw [hrel]; simp
  have hr : p._released[l1.length] = r := by
    have := ptrAt_middle l1 l2 r
    rw [← hrel, ptrAt_of_lt _ _ hlt] at this
    exact this
  refine ⟨_, lockLatestData_node p l1.length hit hlt, ?_, ?_, ?_, ?_⟩
  · simp only [hrel, eraseIdx_middle]
  · simp only [hr]
  · simp only [hrel, eraseIdx_middle]; simp; omega
  · simp

theorem C3_lockLatestData_moves_cursor_record_witness :
    ∃ q, lockLatestData ⟨.node 1, [1, 2, 3], [4, 5]⟩ = some q ∧ q._released = [1] ++ [3] ∧
      q._locked = [4, 5] ++ [2] ∧ q._released.length + 1 = 3 ∧ q._locked.length = 2 + 1 :=
  C3_lockLatestData_moves_cursor_record.1 ⟨.node 1, [1, 2, 3], [4, 5]⟩ [1] [3] 2 rfl rfl

/-- C4: when the free list is `h` followed by `t`, `createData()` returns `h`, the
active list becomes the old active list with `h` appended at its tail, and the free
list becomes `t` (the cursor is not touched). -/
theorem C4_createData_promotes_free_head (p : DataPool) (h : Ptr) (t : PoolList)
    (hfree : p._locked = h :: t) :
    createData p = (h, ⟨p._releasedIter, p._released ++ [h], t⟩) := by
  obtain ⟨it, l, f⟩ := p
  simp only at hfree
  subst hfree
  rfl

theorem C4_createData_promotes_free_head_witness :
    createData ⟨.node 0, [1, 2], [3, 4]⟩ = (3, ⟨.node 0, [1, 2] ++ [3], [4]⟩) :=
  C4_createData_promotes_free_head ⟨.node 0, [1, 2], [3, 4]⟩ 3 [4] rfl

/-- C5: when the free list is empty, `createData()` returns `nullptr` and leaves the
active list, the free list and the cursor as they were; conversely, in a pool whose
free list holds records (non-null pointers), `createData()` returns `nullptr` only
when the free list is empty. -/
theorem C5_createData_exhausted (p : DataPool) :
    (p._locked = [] → createData p = (nullptr, p)) ∧
    (nullptr ∉ p._locked → (createData p).1 = nullptr → p._locked = []) := by
  obtain ⟨it, l, f⟩ := p
  constructor
  · intro h
    simp only at h
    subst h
    rfl
  · intro hnull hret
    cases f with
    | nil => rfl
    | cons a t =>
      simp only [createData] at hret
      simp only [List.mem_cons, not_or] at hnull
      exact absurd hret.symm hnull.1

theorem C5_createData_exhausted_witness :
    createData ⟨.node 1, [1, 2], []⟩ = (nullptr, ⟨.node 1, [1, 2], []⟩) ∧
    ((createData ⟨.node 1, [1, 2], []⟩).1 = nullptr →
      (⟨.node 1, [1, 2], []⟩ : DataPool)._locked = []) :=
  ⟨(C5_createData_exhausted ⟨.node 1, [1, 2], []⟩).1 rfl,
   (C5_createData_exhausted ⟨.node 1, [1, 2], []⟩).2 (by decide)⟩

/-- C6: conservation.  Along every sequence of `createData`, `lockLatestData`,
`lockData`, `lockAllDatas`, `getFirst` and `getNext` calls that is defined (each
`lockLatestData` finds the cursor on an active record), the pool after every initial
part of the sequence holds as many records, `|active| + |free|`, as before the sequence;
for a pool filled by `addData` calls this is the number of records added. -/
theorem C6_conservation (p q : DataPool) (pre post : List PoolCall)
    (hrun : calls p (pre ++ post) = some q) :
    ∃ p', calls p pre = some p' ∧
      p'._released.length + p'._locked.length = p._released.length + p._locked.length ∧
      (∀ ds : List Ptr, p = ds.foldl addData new →
        p'._released.length + p'._locked.length = ds.length) := by
  rw [calls_append] at hrun
  cases hpre : calls p pre with
  | none => simp [hpre] at hrun
  | some p' =>
    have hcap : capacity p' = capacity p := calls_capacity p p' pre hpre
    refine ⟨p', rfl, hcap, ?_⟩
    intro ds hds
    have h2 := addData_capacity ds new
    rw [← hds] at h2
    have h3 : capacity p' = capacity new + ds.length := by rw [hcap, h2]
    simpa [capacity, new] using h3

theorem C6_conservation_witness :
    ∃ p', calls ([1, 2, 3].foldl addData new)
        [.createData, .createData, .getFirst, .lockLatestData, .getNext] = some p' ∧
      p'._released.length + p'._locked.length
        = ([1, 2, 3].foldl addData new)._released.length
          + ([1, 2, 3].foldl addData new)._locked.length ∧
      (∀ ds : List Ptr, [1, 2, 3].foldl addData new = ds.foldl addData new →
        p'._released.length + p'._locked.length = ds.length) :=
  C6_conservation ([1, 2, 3].foldl addData new) ⟨.endIt, [], [3, 1, 2]⟩
    [.createData, .createData, .getFirst, .lockLatestData, .getNext]
    [.lockData 2, .lockAllDatas] (by decide)

/-- C7: no duplication, no loss.  In a pool whose records (active and free together)
are pairwise distinct, each of `createData`, `lockLatestData` (with the cursor on an
active record), `lockData` and `lockAllDatas` returns a pool whose `active ++ free`
is a permutation of the former one, with every record in exactly one of the two
lists. -/
theorem C7_no_duplication_no_loss (p : DataPool)
    (hdistinct : (p._released ++ p._locked).Nodup) :
    Conserves p (createData p).2 ∧
    (∀ i, p._releasedIter = .node i → i < p._released.length →
      ∃ q, lockLatestData p = some q ∧ Conserves p q) ∧
    (∀ d, ∃ q, lockData p d = some q ∧ Conserves p q) ∧
    Conserves p (lockAllDatas p) := by
  refine ⟨conserves_of_perm _ _ hdistinct (createData_perm p), ?_, ?_,
    conserves_of_perm _ _ hdistinct (lockAllDatas_perm p)⟩
  · intro i hit hi
    have h := lockLatestData_node p i hit hi
    exact ⟨_, h, conserves_of_perm _ _ hdistinct (lockLatestData_perm p _ h)⟩
  · intro d
    obtain ⟨q, hq⟩ := lockData_isSome p d
    exact ⟨q, hq, conserves_of_perm _ _ hdistinct (lockData_perm p q d hq)⟩

theorem C7_no_duplication_no_loss_witness :
    ([1, 2, 3] ++ [4, 5] : PoolList).Nodup ∧
    (∀ d, ∃ q, lockData ⟨.node 1, [1, 2, 3], [4, 5]⟩ d = some q ∧
      Conserves ⟨.node 1, [1, 2, 3], [4, 5]⟩ q) :=
  ⟨by decide, (C7_no_duplication_no_loss ⟨.node 1, [1, 2, 3], [4, 5]⟩ (by decide)).2.2.1⟩

/-- When the record `d` is in the active list of distinct, non-null records,
`lockData(d)` returns, with exactly `d` moved from the active list to the tail of
the free list and the other active records in order, wherever the cursor is.  A
cursor that is not on `d` designates the same active record as before, or is still
the end sentinel; a cursor that is on `d` is restored onto the erased node. -/
theorem lockData_present_record (p : DataPool) (d : Ptr) (l1 l2 : PoolList)
    (hsplit : p._released = l1 ++ d :: l2)
    (hdistinct : p._released.Nodup)
    (hrecords : nullptr ∉ p._released) :
    ∃ q, lockData p d = some q ∧
      q._released = l1 ++ l2 ∧
      q._locked = p._locked ++ [d] ∧
      (p._releasedIter ≠ .node l1.length →
        q._released.deref q._releasedIter = p._released.deref p._releasedIter ∧
        (q._releasedIter = .endIt ↔ p._releasedIter = .endIt)) ∧
      (p._releasedIter = .node l1.length → q._releasedIter = .singular) := by
  have hlen : l1.length < p._released.length := by rw [hsplit]; simp
  have hat : ptrAt p._released l1.length = d := by rw [hsplit]; exact ptrAt_middle l1 l2 d
  obtain ⟨k, hbefore, hk | hk⟩ := lockData_spec p d
  · exfalso
    obtain ⟨hnull, -⟩ := hk
    by_cases hlt : k < p._released.length
    · rw [ptrAt_of_lt _ _ hlt] at hnull
      exact hrecords (hnull ▸ List.getElem_mem hlt)
    · exact (hbefore l1.length (by omega)).2 hat
  · obtain ⟨hlt, hkd, -, hrun⟩ := hk
    have hkeq : k = l1.length := by
      rw [ptrAt_of_lt _ _ hlt] at hkd
      rw [ptrAt_of_lt _ _ hlen] at hat
      exact (List.Nodup.getElem_inj_iff hdistinct).mp (hkd.trans hat.symm)
    subst hkeq
    refine ⟨_, hrun, ?_, rfl, ?_, ?_⟩
    · simp only [hsplit, eraseIdx_middle]
    · intro hcursor
      refine ⟨?_, afterErase_eq_endIt _ _⟩
      simp only [hsplit, eraseIdx_middle]
      exact deref_afterErase l1 l2 d p._releasedIter hcursor
    · intro hon
      simp [hon, PoolIterator.afterErase]

theorem lockData_present_record_example :
    ∃ q, lockData ⟨.node 2, [1, 2, 3], [4]⟩ 2 = some q ∧
      q._released = [1] ++ [3] ∧
      q._locked = [4] ++ [2] ∧
      (PoolIterator.node 2 ≠ .node 1 →
        q._released.deref q._releasedIter = PoolList.deref [1, 2, 3] (.node 2) ∧
        (q._releasedIter = .endIt ↔ PoolIterator.node 2 = .endIt)) ∧
      (PoolIterator.node 2 = .node 1 → q._releasedIter = .singular) :=
  lockData_present_record ⟨.node 2, [1, 2, 3], [4]⟩ 2 [1] [3] rfl (by decide) (by decide)

/-- C8 (the code departs from the claim): with the cursor on record `1` of the active
list `[1, 2]`, `lockData(1)` moves `1` to the free list and then restores the saved
cursor, whose node it has just erased.  After the call the cursor designates no
active record and is not the end sentinel, and the `getNext()` that follows has no
defined result. -/
theorem C8_lockData_cursor_on_released_record :
    PoolList.deref [1, 2] (.node 0) = some 1 ∧
    lockData ⟨.node 0, [1, 2], []⟩ 1 = some ⟨.singular, [2], [1]⟩ ∧
    PoolList.deref [2] .singular = none ∧
    PoolIterator.singular ≠ PoolIterator.endIt ∧
    (lockData ⟨.node 0, [1, 2], []⟩ 1).bind getNext = none := by
  decide

/-- C9: for a record `d` that is not in the active list (a free record included),
`lockData(d)` returns and is a no-op: the active list, the free list and the cursor
are exactly as before the call. -/
theorem C9_lockData_absent_record (p : DataPool) (d : Ptr) (habsent : d ∉ p._released) :
    lockData p d = some p := by
  obtain ⟨k, -, hk | hk⟩ := lockData_spec p d
  · exact hk.2
  · exfalso
    obtain ⟨hlt, hkd, -, -⟩ := hk
    rw [ptrAt_of_lt _ _ hlt] at hkd
    exact habsent (hkd ▸ List.getElem_mem hlt)

theorem C9_lockData_absent_record_witness :
    lockData ⟨.node 1, [1, 2, 3], [4, 5]⟩ 4 = some ⟨.node 1, [1, 2, 3], [4, 5]⟩ :=
  C9_lockData_absent_record ⟨.node 1, [1, 2, 3], [4, 5]⟩ 4 (by decide)

/-- C10 as stated fails: a pool with no active record and the free record `7` answers
`empty() = true` although `createData()` succeeds and returns `7`; a pool with the
active record `7` and no free record answers `empty() = false` although
`createData()` returns `nullptr`. -/
theorem C10_empty_is_not_exhaustion :
    empty ⟨.singular, [], [7]⟩ = true ∧ (createData ⟨.singular, [], [7]⟩).1 = 7 ∧
    empty ⟨.singular, [7], []⟩ = false ∧ (createData ⟨.singular, [7], []⟩).1 = nullptr := by
  decide

/-- C10 (amended): `empty()` returns true if and only if the active list is empty,
that is, when no record is in use; it says nothing about the free list. -/
theorem C10_empty_iff_no_active_record (p : DataPool) :
    (empty p = true ↔ p._released = []) ∧ empty p = (getActiveDataList p).isEmpty := by
  refine ⟨?_, rfl⟩
  simp [empty, List.isEmpty_iff]

/-- C12: after `lockAllDatas()` the active list is empty, the free list is the old
free list followed by the old active list, so it contains every record that was
active or free and its length is the old `|active| + |free|`, and the cursor is at
the end sentinel, where `getNext()` returns `nullptr`. -/
theorem C12_lockAllDatas_releases_everything (p : DataPool) :
    (lockAllDatas p)._released = [] ∧
    (lockAllDatas p)._locked = p._locked ++ p._released ∧
    (∀ r, r ∈ p._released ∨ r ∈ p._locked → r ∈ (lockAllDatas p)._locked) ∧
    (lockAllDatas p)._locked.length = p._released.length + p._locked.length ∧
    (lockAllDatas p)._releasedIter = .endIt ∧
    getNext (lockAllDatas p) = some (nullptr, lockAllDatas p) := by
  refine ⟨rfl, rfl, ?_, ?_, rfl, getNext_end _ rfl⟩
  · intro r hr
    simp only [lockAllDatas, List.mem_append]
    exact hr.symm
  · simp only [lockAllDatas, List.length_append]
    omega

/-- C13: capacity growth.  Calling `addData` with the `k` records `ds` appends them to
the free list, whose size grows by exactly `k`; the active list and the cursor are
untouched, and every added record is in the free list afterwards. -/
theorem C13_addData_grows_free_list (p : DataPool) (ds : List Ptr) :
    (ds.foldl addData p)._locked = p._locked ++ ds ∧
    (ds.foldl addData p)._locked.length = p._locked.length + ds.length ∧
    (ds.foldl addData p)._released = p._released ∧
    (ds.foldl addData p)._releasedIter = p._releasedIter ∧
    (∀ d ∈ ds, d ∈ (ds.foldl addData p)._locked) := by
  have key : ∀ (ds : List Ptr) (p : DataPool),
      ds.foldl addData p = ⟨p._releasedIter, p._released, p._locked ++ ds⟩ := by
    intro ds
    induction ds with
    | nil => intro p; simp
    | cons d ds ih => intro p; simp [ih, addData]
  rw [key ds p]
  refine ⟨rfl, by simp, rfl, rfl, ?_⟩
  intro d hd
  simp [hd]

/-- C14: on the active list `[a1, ..., an]`, `getFirst()` followed by `n + k` calls of
`getNext()` returns `a1, ..., an` in list order, each once, and then `nullptr` at
every further call (for `n = 0` already at `getFirst()`); the cursor ends at the end
sentinel and both lists are as before.  When the records are non-null, the loop
`ptr = getFirst(); while (ptr) ptr = getNext();` therefore visits exactly
`a1, ..., an`. -/
theorem C14_traversal_in_list_order (p : DataPool) (k : Nat) :
    traversal (p._released.length + k) p
      = some (p._released ++ List.replicate (k + 1) nullptr,
          ⟨.endIt, p._released, p._locked⟩) ∧
    (p._released = [] → (getFirst p).1 = nullptr) ∧
    (nullptr ∉ p._released →
      pass (fun _ => false) p = some (p._released, ⟨.endIt, p._released, p._locked⟩)) := by
  refine ⟨?_, ?_, ?_⟩
  · rw [traversal_eq]
    have h := map_ptrAt_range_past p._released (k + 1)
    rw [show p._released.length + k + 1 = p._released.length + (k + 1) by omega, h]
    simp [cursorAt]
  · intro h
    rw [getFirst_eq, h]
    rfl
  · intro hnull
    obtain ⟨it, l, f⟩ := p
    cases l with
    | nil => simp [pass, getFirst_eq, ptrAt, cursorAt, passLoop]
    | cons a rest =>
      have ha : a ≠ nullptr := fun e => hnull (by simp [e])
      have hrest : nullptr ∉ rest := fun h => hnull (List.mem_cons_of_mem _ h)
      have h := pass_head_kept (fun _ => false) it a rest f ha hrest rfl
      simpa using h

theorem C14_traversal_in_list_order_witness :
    traversal (3 + 2) ⟨.singular, [1, 2, 3], [4]⟩
      = some ([1, 2, 3] ++ List.replicate (2 + 1) nullptr, ⟨.endIt, [1, 2, 3], [4]⟩) ∧
    pass (fun _ => false) ⟨.singular, [1, 2, 3], [4]⟩
      = some ([1, 2, 3], ⟨.endIt, [1, 2, 3], [4]⟩) :=
  ⟨(C14_traversal_in_list_order ⟨.singular, [1, 2, 3], [4]⟩ 2).1,
   (C14_traversal_in_list_order ⟨.singular, [1, 2, 3], [4]⟩ 2).2.2 (by decide)⟩

/-- C15 as stated fails: with the cursor at the end sentinel (after a finished
traversal, after `getFirst()` on an empty active list, after `lockAllDatas()`),
`lockLatestData()` is not a no-op that returns the pool unchanged; it dereferences
`_released.end()` and has no defined result. -/
theorem C15_lockLatestData_unguarded_at_end :
    lockLatestData ⟨.endIt, [1], [2]⟩ = none ∧
    lockLatestData (getFirst ⟨.singular, [], [1]⟩).2 = none ∧
    lockLatestData (lockAllDatas ⟨.node 0, [1], []⟩) = none := by
  decide

/-- C15 (amended): `lockLatestData()` has no guard.  With the cursor not on an active
record it dereferences the cursor first, which is undefined, so it has no defined
result; the operation that is guarded at the end sentinel is `getNext()`, which
returns `nullptr` there and leaves the active list, the free list and the cursor
unchanged. -/
theorem C15_lockLatestData_requires_positioned_cursor (p : DataPool)
    (hnot : p._released.deref p._releasedIter = none) :
    lockLatestData p = none ∧
    (p._releasedIter = .endIt → getNext p = some (nullptr, p)) := by
  refine ⟨?_, fun h => getNext_end p h⟩
  unfold lockLatestData
  rw [hnot]

theorem C15_lockLatestData_requires_positioned_cursor_witness :
    lockLatestData ⟨.endIt, [1], [2]⟩ = none ∧
    (PoolIterator.endIt = PoolIterator.endIt →
      getNext ⟨.endIt, [1], [2]⟩ = some (nullptr, ⟨.endIt, [1], [2]⟩)) :=
  C15_lockLatestData_requires_positioned_cursor ⟨.endIt, [1], [2]⟩ rfl

end DataPool

namespace ParticleSystem3D

/-- C16 as stated fails: a particle system whose pool has the two active records `1`
and `2` reports `getAliveParticleCount() = 0`, while the active list has length 2. -/
theorem C16_alive_count_ignores_pool :
    getAliveParticleCount ⟨.RUNNING, ⟨.singular, [1, 2], [3]⟩, 0, 3, false, true⟩ = 0 ∧
    ((getParticlePool
      ⟨.RUNNING, ⟨.singular, [1, 2], [3]⟩, 0, 3, false, true⟩).getActiveDataList.length : Int)
      = 2 := by
  decide

/-- C16 (amended): `ParticleSystem3D::getAliveParticleCount()` returns 0 for every
particle system state, whatever its pool holds; it agrees with the length of the
pool's active list exactly when that list is empty. -/
theorem C16_alive_count_is_zero (s : ParticleSystem3D) :
    getAliveParticleCount s = 0 ∧
    (getAliveParticleCount s = ((getParticlePool s).getActiveDataList.length : Int) ↔
      (getParticlePool s).getActiveDataList = []) := by
  refine ⟨rfl, ?_⟩
  simp only [getAliveParticleCount, getParticlePool, DataPool.getActiveDataList]
  constructor
  · intro h
    exact List.length_eq_zero.mp (by exact_mod_cast h.symm)
  · intro h
    simp [h]

/-- C17: stop transition.  From `RUNNING` or `PAUSE`, `stopParticleSystem()` sets the
state to `STOP` and releases every active particle: afterwards the active list is
empty and the free list holds the whole capacity, the old `|active| + |free|`. -/
theorem C17_stop_releases_all (s : ParticleSystem3D)
    (hstate : s._state = .RUNNING ∨ s._state = .PAUSE) :
    (stopParticleSystem s)._state = .STOP ∧
    (stopParticleSystem s)._particlePool._released = [] ∧
    (stopParticleSystem s)._particlePool._locked
      = s._particlePool._locked ++ s._particlePool._released ∧
    (stopParticleSystem s)._particlePool._locked.length
      = s._particlePool._released.length + s._particlePool._locked.length := by
  obtain ⟨st, pool, cnt, quota, kl, en⟩ := s
  simp only at hstate
  rcases hstate with h | h <;> subst h <;>
    simp [stopParticleSystem, DataPool.lockAllDatas, Nat.add_comm]

theorem C17_stop_releases_all_witness :
    (stopParticleSystem ⟨.RUNNING, ⟨.node 2, [1, 2, 3, 4], [5, 6]⟩, 4, 6, false, true⟩)._state
      = .STOP ∧
    (stopParticleSystem
      ⟨.RUNNING, ⟨.node 2, [1, 2, 3, 4], [5, 6]⟩, 4, 6, false, true⟩)._particlePool._released
      = [] ∧
    (stopParticleSystem
      ⟨.RUNNING, ⟨.node 2, [1, 2, 3, 4], [5, 6]⟩, 4, 6, false, true⟩)._particlePool._locked
      = [5, 6] ++ [1, 2, 3, 4] ∧
    (stopParticleSystem
      ⟨.RUNNING, ⟨.node 2, [1, 2, 3, 4], [5, 6]⟩, 4, 6, false, true⟩)._particlePool._locked.length
      = 4 + 2 :=
  C17_stop_releases_all ⟨.RUNNING, ⟨.node 2, [1, 2, 3, 4], [5, 6]⟩, 4, 6, false, true⟩
    (Or.inl rfl)

end ParticleSystem3D

namespace DataPool

/-- C18: restricted traversal completeness.  On non-null active records
`[a1, ..., an]` and for a selection `kill` that does not select `a1`, the pass
`p = getFirst(); while (p) { if (kill p) lockLatestData(); p = getNext(); }` returns,
having visited `a1, ..., an` once each in order; it ends at the end sentinel with
the active list reduced to the records not selected, in their order, and the free
list extended by the selected records in visit order. -/
theorem C18_pass_complete_when_head_kept (kill : Ptr → Bool) (p : DataPool)
    (hrecords : nullptr ∉ p._released)
    (hhead : ∀ a ∈ p._released.head?, kill a = false) :
    pass kill p
      = some (p._released, ⟨.endIt, p._released.filter (fun r => !kill r),
          p._locked ++ p._released.filter kill⟩) := by
  obtain ⟨it, l, f⟩ := p
  cases l with
  | nil => simp [pass, getFirst_eq, ptrAt, cursorAt, passLoop]
  | cons a rest =>
    have ha : a ≠ nullptr := fun e => hrecords (by simp [e])
    have hrest : nullptr ∉ rest := fun h => hrecords (List.mem_cons_of_mem _ h)
    have hkeep : kill a = false := hhead a (by simp)
    have h := pass_head_kept kill it a rest f ha hrest hkeep
    simpa [List.filter_cons, hkeep] using h

theorem C18_pass_complete_when_head_kept_witness :
    pass (fun r => r == 2 || r == 4) ⟨.singular, [1, 2, 3, 4], [5]⟩
      = some ([1, 2, 3, 4], ⟨.endIt, [1, 2, 3, 4].filter (fun r => !(r == 2 || r == 4)),
          [5] ++ [1, 2, 3, 4].filter (fun r => r == 2 || r == 4)⟩) :=
  C18_pass_complete_when_head_kept (fun r => r == 2 || r == 4) ⟨.singular, [1, 2, 3, 4], [5]⟩
    (by decide) (by decide)

/-- C19: cursor position after a release.  With the cursor on the record at index `i`
of an active list of `n` records, `lockLatestData()` leaves the cursor on the former
predecessor (index `i - 1`) when `0 < i < n - 1`, on the former successor, which is
the new head of the active list, when `i = 0` and `n > 1`, and at the end sentinel
when `i = n - 1` (also for `n = 1`). -/
theorem C19_cursor_after_release (p : DataPool) (i : Nat)
    (hcursor : p._releasedIter = .node i) (hi : i < p._released.length) :
    ∃ q, lockLatestData p = some q ∧
      (0 < i → i + 1 < p._released.length →
        q._releasedIter = .node (i - 1) ∧
        q._released.deref q._releasedIter = p._released[i - 1]?) ∧
      (i = 0 → 1 < p._released.length →
        q._releasedIter = q._released.begin ∧
        q._released.deref q._releasedIter = p._released[1]?) ∧
      (i + 1 = p._released.length → q._releasedIter = .endIt) := by
  refine ⟨_, lockLatestData_node p i hcursor hi, ?_, ?_, ?_⟩
  · intro h0 h1
    have hne : i ≠ 0 := by omega
    simp only [cursorAfterRelease, h1, hne, if_true, if_false, PoolList.deref, true_and]
    exact List.getElem?_eraseIdx_of_lt _ _ _ (by omega)
  · intro h0 h1
    subst h0
    have hlen : 0 < (p._released.eraseIdx 0).length := by
      rw [List.length_eraseIdx]; simp [hi]; omega
    obtain ⟨a, t, hat⟩ := List.exists_cons_of_ne_nil (List.ne_nil_of_length_pos hlen)
    have hc : cursorAfterRelease 0 p._released.length = .node 0 := by
      simp [cursorAfterRelease, h1]
    simp only [hc, PoolList.deref]
    refine ⟨by rw [hat]; rfl, ?_⟩
    exact List.getElem?_eraseIdx_of_ge _ _ _ (le_refl 0)
  · intro h
    have hn : ¬ (i + 1 < p._released.length) := by omega
    simp [cursorAfterRelease, hn]

theorem C19_cursor_after_release_witness :
    ∃ q, lockLatestData ⟨.node 1, [1, 2, 3], []⟩ = some q ∧
      (0 < 1 → 1 + 1 < [1, 2, 3].length →
        q._releasedIter = .node (1 - 1) ∧
        q._released.deref q._releasedIter = [1, 2, 3][1 - 1]?) ∧
      (1 = 0 → 1 < [1, 2, 3].length →
        q._releasedIter = q._released.begin ∧
        q._released.deref q._releasedIter = [1, 2, 3][1]?) ∧
      (1 + 1 = [1, 2, 3].length → q._releasedIter = .endIt) :=
  C19_cursor_after_release ⟨.node 1, [1, 2, 3], []⟩ 1 rfl (by decide)

/-- C20: a successful `createData()` does not disturb a traversal.  The cursor is
unchanged: on the active record it was on (a cursor at the end sentinel stays at the
end sentinel, where `getNext()` still returns `nullptr`); the acquired record `h`
sits after every formerly active record, and from a cursor on the active record at
index `i` the following `getNext()` calls return the remaining records and then `h`. -/
theorem C20_createData_keeps_cursor (p : DataPool) (h : Ptr) (t : PoolList)
    (hfree : p._locked = h :: t) :
    (createData p).2._releasedIter = p._releasedIter ∧
    (createData p).2._released = p._released ++ [h] ∧
    (p._releasedIter = .endIt → getNext (createData p).2 = some (nullptr, (createData p).2)) ∧
    (∀ i, p._releasedIter = .node i → i < p._released.length →
      (createData p).2._released.deref (createData p).2._releasedIter
        = p._released.deref p._releasedIter ∧
      getNextN (p._released.length - i) (createData p).2
        = some (p._released.drop (i + 1) ++ [h],
            ⟨.node p._released.length, p._released ++ [h], t⟩)) := by
  obtain ⟨it, l, f⟩ := p
  simp only at hfree
  subst hfree
  refine ⟨rfl, rfl, ?_, ?_⟩
  · intro hend
    exact getNext_end _ hend
  · intro i hit hi
    simp only at hit hi
    subst hit
    simp only [createData]
    refine ⟨?_, ?_⟩
    · simp [PoolList.deref, List.getElem?_append_left hi]
    · have hc : PoolIterator.node i = cursorAt (l ++ [h]) i := by
        have hlt : i < (l ++ [h]).length := by simp; omega
        simp only [cursorAt, hlt, if_true]
      rw [hc, getNextN_cursorAt (l ++ [h]) t (l.length - i) i]
      have hm := map_ptrAt_range (l ++ [h]) (i + 1) (l.length - i) (by simp; omega)
      rw [hm]
      have e : i + (l.length - i) = l.length := by omega
      have hd : (l ++ [h]).drop (i + 1) = l.drop (i + 1) ++ [h] := by
        rw [List.drop_append_of_le_length (by omega)]
      have ht : (l.drop (i + 1) ++ [h]).take (l.length - i) = l.drop (i + 1) ++ [h] := by
        apply List.take_of_length_le
        simp; omega
      rw [e, hd, ht]
      simp [cursorAt]

theorem C20_createData_keeps_cursor_witness :
    (createData ⟨.node 0, [1, 2], [3, 4]⟩).2._releasedIter = .node 0 ∧
    (createData ⟨.node 0, [1, 2], [3, 4]⟩).2._released = [1, 2] ++ [3] ∧
    (PoolIterator.node 0 = .endIt →
      getNext (createData ⟨.node 0, [1, 2], [3, 4]⟩).2
        = some (nullptr, (createData ⟨.node 0, [1, 2], [3, 4]⟩).2)) ∧
    (∀ i, PoolIterator.node 0 = .node i → i < [1, 2].length →
      (createData ⟨.node 0, [1, 2], [3, 4]⟩).2._released.deref
          (createData ⟨.node 0, [1, 2], [3, 4]⟩).2._releasedIter
        = PoolList.deref [1, 2] (.node 0) ∧
      getNextN ([1, 2].length - i) (createData ⟨.node 0, [1, 2], [3, 4]⟩).2
        = some ([1, 2].drop (i + 1) ++ [3], ⟨.node [1, 2].length, [1, 2] ++ [3], [4]⟩)) :=
  C20_createData_keeps_cursor ⟨.node 0, [1, 2], [3, 4]⟩ 3 [4] rfl

end DataPool

end ax
